import Mathlib

/-!
# Verification of the pyinseq read-processing core

Shallow embedding of the pyinseq repository's core components:

* `convert_to_filename` (src/pyinseq/utils.py) — sample-name normalization,
* `tab_delimited_samples_to_dict` (src/pyinseq/runner.py) — sample table loader,
* `extract_chromosome_sequence` (src/pyinseq/pyinseq.py) — transposon-junction
  extractor and aggregation map,
* `trim_fastq`'s acceptance decision (src/demultiplex.py),
* `demultiplex_fastq` / `writeReads` (src/demultiplex.py) — barcode classifier
  with periodic flushing.

Strings are modelled as Lean `String`s (lists of characters); Python dicts that
are used as insertion-ordered maps are modelled as association lists.
-/

namespace Pyinseq

/-! ## Association lists (Python dict as insertion-ordered map) -/

/-- Lookup in an association list: value of the first entry with the given key
(Python `d[k]` / `k in d`). -/
def alGet {α : Type} : List (String × α) → String → Option α
  | [], _ => none
  | (k, v) :: rest, key => if k = key then some v else alGet rest key

/-- Pointwise update of the first entry with the given key; no-op when the key
is absent. -/
def alUpdate {α : Type} : List (String × α) → String → (α → α) → List (String × α)
  | [], _, _ => []
  | (k, v) :: rest, key, f =>
      if k = key then (k, f v) :: rest else (k, v) :: alUpdate rest key f

/-- Lookup with default `[]` (used for read buffers and output files). -/
def alGetD {α : Type} (m : List (String × List α)) (k : String) : List α :=
  (alGet m k).getD []

theorem alGet_alUpdate {α : Type} (m : List (String × α)) (k k' : String) (f : α → α) :
    alGet (alUpdate m k f) k' = if k = k' then (alGet m k').map f else alGet m k' := by
  induction m with
  | nil =>
      by_cases h : k = k' <;> simp [alGet, alUpdate, h]
  | cons p rest ih =>
      obtain ⟨a, v⟩ := p
      by_cases hak : a = k
      · subst hak
        by_cases hk' : a = k'
        · subst hk'; simp [alUpdate, alGet]
        · have hk'' : ¬a = k' := hk'
          simp [alUpdate, alGet, hk'']
      · by_cases hk' : a = k'
        · subst hk'
          have hka : ¬k = a := fun h => hak h.symm
          simp [alUpdate, alGet, hak, hka]
        · simp [alUpdate, alGet, hak, hk', ih]

theorem alUpdate_keys {α : Type} (m : List (String × α)) (k : String) (f : α → α) :
    (alUpdate m k f).map Prod.fst = m.map Prod.fst := by
  induction m with
  | nil => simp [alUpdate]
  | cons p rest ih =>
      obtain ⟨a, v⟩ := p
      by_cases hak : a = k <;> simp [alUpdate, hak, ih]

theorem alGet_isSome_of_mem_keys {α : Type} (m : List (String × α)) (k : String)
    (h : k ∈ m.map Prod.fst) : (alGet m k).isSome := by
  induction m with
  | nil => simp at h
  | cons p rest ih =>
      obtain ⟨a, v⟩ := p
      by_cases hak : a = k
      · simp [alGet, hak]
      · rw [List.map_cons, List.mem_cons] at h
        rcases h with h | h
        · exact absurd h.symm hak
        · simpa [alGet, hak] using ih h

theorem alGet_eq_none_of_not_mem_keys {α : Type} (m : List (String × α)) (k : String)
    (h : k ∉ m.map Prod.fst) : alGet m k = none := by
  induction m with
  | nil => simp [alGet]
  | cons p rest ih =>
      obtain ⟨a, v⟩ := p
      rw [List.map_cons, List.mem_cons] at h
      push_neg at h
      have hak : ¬a = k := fun hh => h.1 hh.symm
      simp [alGet, hak, ih h.2]

/-! ## `convert_to_filename` (src/pyinseq/utils.py lines 53-60)

```python
return re.sub(r'(?u)[^-\w]', '', sample_name.strip().replace(' ', '_'))
```
-/

/-- Whitespace stripped by Python `str.strip()` (ASCII fragment). -/
def pyIsSpaceChar (c : Char) : Bool :=
  c = ' ' || c = '\t' || c = '\n' || c = '\x0d' || c = '\x0b' || c = '\x0c'

/-- Python regex `\w` word characters (ASCII fragment of the Unicode class:
letters, digits, underscore). -/
def pyWordChar (c : Char) : Bool :=
  (65 ≤ c.toNat && c.toNat ≤ 90) || (97 ≤ c.toNat && c.toNat ≤ 122) ||
    (48 ≤ c.toNat && c.toNat ≤ 57) || c = '_'

/-- Python `str.strip()`: drop leading and trailing whitespace. -/
def pyStrip (l : List Char) : List Char :=
  ((l.dropWhile pyIsSpaceChar).reverse.dropWhile pyIsSpaceChar).reverse

/-- Characters kept by `re.sub(r'(?u)[^-\w]', '', ·)`. -/
def keepChar (c : Char) : Bool := c = '-' || pyWordChar c

/-- Character-list body of `convert_to_filename`. -/
def convChars (l : List Char) : List Char :=
  ((pyStrip l).map (fun c => if c = ' ' then '_' else c)).filter keepChar

/-- `convert_to_filename` from src/pyinseq/utils.py: strip, spaces to
underscores, drop characters outside `[-\w]`. -/
def convert_to_filename (s : String) : String := ⟨convChars s.data⟩

/-! ## Sample table loader (src/pyinseq/runner.py lines 124-138,
src/demultiplex.py lines 17-45)

```python
if sample not in samplesDict and barcode not in samplesDict.values():
    samplesDict[sample] = {'barcode': barcode}
else:
    raise IOError('Error: duplicate sample {0} barcode {1}'.format(sample, barcode))
```

The dict values are `{'barcode': barcode}` dictionaries, so the membership
test `barcode not in samplesDict.values()` compares the barcode *string*
against those *dict* objects; in Python `str == dict` is `False`, hence the
test is vacuously true.  `pyEqStrRec` embeds that comparison.
-/

/-- Value stored per sample by the loader: the Python dict `{'barcode': b}`. -/
structure SampleRec where
  barcode : String
deriving DecidableEq, Repr

/-- Python `==` between the barcode string and a `{'barcode': ...}` dict value:
always `False` (a str never equals a dict). -/
def pyEqStrRec (_s : String) (_r : SampleRec) : Bool := false

/-- Python `str.upper()` (ASCII). -/
def pyUpper (s : String) : String := ⟨s.data.map Char.toUpper⟩

/-- Python `line[0].startswith('#')`: the first column begins with `#`. -/
def pyStartsWithHash (s : String) : Bool :=
  match s.data with
  | [] => false
  | c :: _ => c = '#'

/-- Loop body of `tab_delimited_samples_to_dict`, accumulating the ordered
dict; `.error` models the raised `IOError`. -/
def loadSamplesLoop : List (String × String) → List (String × SampleRec) →
    Except String (List (String × SampleRec))
  | [], acc => .ok acc
  | (c0, c1) :: rest, acc =>
      if pyStartsWithHash c0 then loadSamplesLoop rest acc
      else
        let sample := convert_to_filename c0
        let barcode := pyUpper c1
        if (alGet acc sample).isNone && !(acc.any (fun p => pyEqStrRec barcode p.2)) then
          loadSamplesLoop rest (acc ++ [(sample, ⟨barcode⟩)])
        else
          .error ("Error: duplicate sample " ++ sample ++ " barcode " ++ barcode)

/-- `tab_delimited_samples_to_dict` from src/pyinseq/runner.py: rows are the
tab-split lines (column 0 = raw name, column 1 = raw barcode). -/
def tab_delimited_samples_to_dict (rows : List (String × String)) :
    Except String (List (String × SampleRec)) :=
  loadSamplesLoop rows []

/-! ## Transposon-junction extractor
(src/pyinseq/pyinseq.py lines 159-194)

```python
pattern = re.compile('''
^                               # beginning of string
([ACGT]{4})                     # group(1) = barcode, any 4-bp of mixed ACGT
([NACGT][ACGT]{13,14}(?:TA))    # group(2) = 16-17 bp of chromosomal sequence
ACAGGTTG                        # flanking transposon sequence
''', re.VERBOSE)
...
m = re.search(pattern, read.sequence)
barcode, chrom_seq = m.group(1), m.group(2)
insertionDict.setdefault(barcode, {chrom_seq: 0})[chrom_seq] += 1
except(KeyError): insertionDict[barcode][chrom_seq] = 1
```
-/

/-- The character class `[ACGT]`. -/
def isACGT (c : Char) : Bool := c = 'A' || c = 'C' || c = 'G' || c = 'T'

/-- The character class `[NACGT]`. -/
def isNACGT (c : Char) : Bool := c = 'N' || isACGT c

/-- The anchor literal `ACAGGTTG` as a character list. -/
def anchorL : List Char := "ACAGGTTG".data

/-- Structure of regex group 2, `[NACGT][ACGT]*TA`: first character in
`[NACGT]`, everything before the final `TA` in `[ACGT]`, last two characters
literally `TA` (counts `{13,14}` are enforced by the caller's length check). -/
def segOk : List Char → Bool
  | [] => false
  | c :: rest =>
      isNACGT c && (rest.take (rest.length - 2)).all isACGT &&
        rest.drop (rest.length - 2) = ['T', 'A']

/-- One backtracking attempt of the anchored regex with group 2 of length `k`:
barcode = first 4 characters (all `[ACGT]`), group 2 = next `k` characters
(shape `segOk`), then the literal anchor. -/
def tryLen (s : List Char) (k : Nat) : Option (List Char × List Char) :=
  if (s.take 4).length = 4 ∧ (s.take 4).all isACGT ∧
      ((s.drop 4).take k).length = k ∧ segOk ((s.drop 4).take k) ∧
      (s.drop (4 + k)).take 8 = anchorL then
    some (s.take 4, (s.drop 4).take k)
  else
    none

/-- `re.search` of the anchored pattern: the greedy `{13,14}` tries the total
group-2 length 17 first, then 16.  Returns `(group(1), group(2))`. -/
def reSearch (s : List Char) : Option (List Char × List Char) :=
  match tryLen s 17 with
  | some r => some r
  | none => tryLen s 16

/-- The aggregation map `insertionDict`:
barcode → (genomic segment → count), insertion-ordered. -/
abbrev AggMap : Type := List (String × List (String × Nat))

/-- Increment (or create with 1) a segment count in an inner dict. -/
def incrInner : List (String × Nat) → String → List (String × Nat)
  | [], seg => [(seg, 1)]
  | (k, v) :: rest, seg =>
      if k = seg then (k, v + 1) :: rest else (k, v) :: incrInner rest seg

/-- The `setdefault` / `KeyError` update of `insertionDict` for one accepted
read: new barcode → `{seg: 1}`; existing barcode, new segment → count 1;
otherwise increment. -/
def incrAgg : AggMap → String → String → AggMap
  | [], bc, seg => [(bc, [(seg, 1)])]
  | (k, inner) :: rest, bc, seg =>
      if k = bc then (k, incrInner inner seg) :: rest
      else (k, inner) :: incrAgg rest bc seg

/-- Processing of one read by `extract_chromosome_sequence`: non-matching
reads fall through the bare `except` and leave the map unchanged. -/
def extractStep (m : AggMap) (seq : String) : AggMap :=
  match reSearch seq.data with
  | none => m
  | some (bc, seg) => incrAgg m ⟨bc⟩ ⟨seg⟩

/-- `extract_chromosome_sequence` from src/pyinseq/pyinseq.py, as a function
of the stream of read sequences. -/
def extract_chromosome_sequence (reads : List String) : AggMap :=
  reads.foldl extractStep []

/-- Count looked up in the aggregation map (0 when absent). -/
def aggCount (m : AggMap) (bc seg : String) : Nat :=
  match alGet m bc with
  | none => 0
  | some inner => ((alGet inner seg).getD 0)

/-- Sum of the counts of one barcode's inner dict. -/
def innerTotal (inner : List (String × Nat)) : Nat := (inner.map Prod.snd).sum

/-- Sum of all counts in the aggregation map. -/
def aggTotal (m : AggMap) : Nat := (m.map (fun p => innerTotal p.2)).sum

/-- Number of reads of the stream accepted by the extractor's pattern. -/
def acceptedCount (reads : List String) : Nat :=
  (reads.filter (fun r => (reSearch r.data).isSome)).length

/-! ## `trim_fastq` acceptance (src/demultiplex.py lines 134-175)

```python
chromosomeSeq = read.sequence.find('TAACAGGTTG') + 2 - bLen
seqSlice = slice(bLen, (chromosomeSeq+bLen))
if chromosomeSeq in range(16, 18):
    trimmed_list.append(read[seqSlice])
```
-/

/-- Index of the first occurrence of `pat` in `s` (Python `str.find`
before the `-1` encoding). -/
def subIdx? (pat : List Char) : List Char → Option Nat
  | [] => if pat.isPrefixOf ([] : List Char) then some 0 else none
  | c :: rest =>
      if pat.isPrefixOf (c :: rest) then some 0
      else (subIdx? pat rest).map (· + 1)

/-- Python `s.find(pat)`: first index, `-1` when absent. -/
def pyFind (s pat : String) : Int :=
  match subIdx? pat.data s.data with
  | some i => (i : Int)
  | none => -1

/-- `trim_fastq`'s per-read acceptance decision (`bLen = 4`):
`chromosomeSeq = sequence.find('TAACAGGTTG') + 2 - 4` must lie in
`range(16, 18)`. -/
def trimAccept (seq : String) : Bool :=
  let chromosomeSeq : Int := pyFind seq "TAACAGGTTG" + 2 - 4
  decide (16 ≤ chromosomeSeq ∧ chromosomeSeq < 18)

/-- `'TAACAGGTTG'` occurs in `seq` at index `i`. -/
def anchorOccursAt (seq : String) (i : Nat) : Prop :=
  "TAACAGGTTG".data.IsPrefix (seq.data.drop i)

instance (seq : String) (i : Nat) : Decidable (anchorOccursAt seq i) := by
  unfold anchorOccursAt
  infer_instance

/-! ## Generic list helpers -/

theorem dropWhile_eq_self_of_forall {p : Char → Bool} (l : List Char)
    (h : ∀ c ∈ l, p c = false) : l.dropWhile p = l := by
  cases l with
  | nil => rfl
  | cons c rest =>
      rw [List.dropWhile_cons, h c (List.mem_cons_self c rest)]
      simp

theorem map_eq_self_of_forall (f : Char → Char) (l : List Char)
    (h : ∀ c ∈ l, f c = c) : l.map f = l := by
  induction l with
  | nil => rfl
  | cons c rest ih =>
      rw [List.map_cons, h c (List.mem_cons_self c rest),
        ih (fun x hx => h x (List.mem_cons_of_mem c hx))]

/-! ## Characters kept by the normalization are inert -/

theorem keep_char_facts (c : Char) (h : keepChar c = true) :
    pyIsSpaceChar c = false ∧ c ≠ ' ' := by
  constructor
  · by_contra hs
    rw [Bool.not_eq_false] at hs
    simp only [pyIsSpaceChar, Bool.or_eq_true, decide_eq_true_eq] at hs
    rcases hs with ((((rfl | rfl) | rfl) | rfl) | rfl) | rfl <;>
      exact absurd h (by decide)
  · rintro rfl
    exact absurd h (by decide)

theorem convChars_idem (l : List Char) : convChars (convChars l) = convChars l := by
  have hkeep : ∀ c ∈ convChars l, keepChar c = true := by
    intro c hc
    exact List.of_mem_filter hc
  have hsp : ∀ c ∈ convChars l, pyIsSpaceChar c = false :=
    fun c hc => (keep_char_facts c (hkeep c hc)).1
  have hstrip : pyStrip (convChars l) = convChars l := by
    unfold pyStrip
    rw [dropWhile_eq_self_of_forall _ hsp]
    rw [dropWhile_eq_self_of_forall _ (fun c hc => hsp c (List.mem_reverse.mp hc))]
    exact List.reverse_reverse _
  have hmap : (convChars l).map (fun c => if c = ' ' then '_' else c) = convChars l := by
    refine map_eq_self_of_forall _ _ (fun c hc => ?_)
    have hne : c ≠ ' ' := (keep_char_facts c (hkeep c hc)).2
    simp [hne]
  have hfilter : (convChars l).filter keepChar = convChars l :=
    List.filter_eq_self.mpr hkeep
  calc convChars (convChars l)
      = ((pyStrip (convChars l)).map (fun c => if c = ' ' then '_' else c)).filter keepChar := rfl
    _ = convChars l := by rw [hstrip, hmap, hfilter]

/-- C10: the sample-name normalization is idempotent: applying
`convert_to_filename` twice gives the same result as applying it once. -/
theorem convert_to_filename_idempotent (s : String) :
    convert_to_filename (convert_to_filename s) = convert_to_filename s := by
  show (⟨convChars (String.data ⟨convChars s.data⟩)⟩ : String) = ⟨convChars s.data⟩
  rw [show String.data ⟨convChars s.data⟩ = convChars s.data from rfl, convChars_idem]

/-- C1: on a sample table whose two lines carry two distinct sample names with
the same normalized barcode, the loader returns a completed mapping holding
both entries instead of failing: the duplicate-barcode test
`barcode not in samplesDict.values()` compares the barcode string to
`{'barcode': ...}` dict values and never fires. -/
theorem loader_duplicate_barcode_returns_mapping :
    ("a" : String) ≠ "b" ∧
      tab_delimited_samples_to_dict [("a", "ACGT"), ("b", "ACGT")]
        = .ok [("a", ⟨"ACGT"⟩), ("b", ⟨"ACGT"⟩)] := by
  exact ⟨by decide, rfl⟩

/-- C6: three copies of the read `"ACGT" + "AAAAAAAAAAAAAATA" + "ACAGGTTG"`
aggregate to exactly `{"ACGT": {"AAAAAAAAAAAAAATA": 3}}`. -/
theorem extract_three_copies :
    extract_chromosome_sequence
        (List.replicate 3 ("ACGT" ++ "AAAAAAAAAAAAAATA" ++ "ACAGGTTG"))
      = [("ACGT", [("AAAAAAAAAAAAAATA", 3)])] := by
  rfl

/-! ## Characterization of one regex attempt -/

theorem tryLen_some_iff (s : List Char) (k : Nat) (bc seg : List Char) :
    tryLen s k = some (bc, seg) ↔
      bc = s.take 4 ∧ seg = (s.drop 4).take k ∧ (s.take 4).length = 4 ∧
        (s.take 4).all isACGT ∧ ((s.drop 4).take k).length = k ∧
        segOk ((s.drop 4).take k) ∧ (s.drop (4 + k)).take 8 = anchorL := by
  unfold tryLen
  split
  case isTrue h =>
    simp only [Option.some.injEq, Prod.mk.injEq]
    constructor
    · rintro ⟨rfl, rfl⟩
      exact ⟨rfl, rfl, h.1, h.2.1, h.2.2.1, h.2.2.2.1, h.2.2.2.2⟩
    · rintro ⟨rfl, rfl, -⟩
      exact ⟨rfl, rfl⟩
  case isFalse h =>
    constructor
    · rintro ⟨⟩
    · rintro ⟨-, -, h1, h2, h3, h4, h5⟩
      exact absurd ⟨h1, h2, h3, h4, h5⟩ h

/-- C2 counterexample: a read whose first four characters are `NAAA`,
continuing with a 16-base genomic segment ending in `TA` and the anchor
`ACAGGTTG`, is *not* aggregated under the raw prefix — the extractor's
pattern requires the barcode group to match `[ACGT]{4}` and rejects the
read outright. -/
theorem extract_prefixN_rejected :
    "AAAAAAAAAAAAAATA".data.length = 16 ∧
      "AAAAAAAAAAAAAATA".data.drop 14 = ['T', 'A'] ∧
      extract_chromosome_sequence ["NAAA" ++ "AAAAAAAAAAAAAATA" ++ "ACAGGTTG"] = [] := by
  refine ⟨rfl, rfl, rfl⟩

/-- C2 (amended): whenever the extractor's pattern matches a read, the barcode
group is exactly the first four characters of the sequence, and those four
characters are content-validated to be in `{A,C,G,T}` — the prefix is not an
unvalidated raw key. -/
theorem reSearch_barcode_validated (s bc seg : List Char)
    (h : reSearch s = some (bc, seg)) :
    bc = s.take 4 ∧ bc.length = 4 ∧ bc.all isACGT = true := by
  unfold reSearch at h
  rcases h17 : tryLen s 17 with - | r
  · rw [h17] at h
    obtain ⟨hbc, -, hl, ha, -⟩ := (tryLen_some_iff s 16 bc seg).mp h
    exact ⟨hbc, hbc ▸ hl, hbc ▸ ha⟩
  · rw [h17] at h
    cases h
    obtain ⟨hbc, -, hl, ha, -⟩ := (tryLen_some_iff s 17 bc seg).mp h17
    exact ⟨hbc, hbc ▸ hl, hbc ▸ ha⟩

/-- Witness for the amended C2 theorem at a concrete accepted read. -/
theorem reSearch_barcode_validated_witness :
    "ACGT".data = ("ACGT" ++ "AAAAAAAAAAAAAATA" ++ "ACAGGTTG").data.take 4 ∧
      "ACGT".data.length = 4 ∧ "ACGT".data.all isACGT = true :=
  reSearch_barcode_validated ("ACGT" ++ "AAAAAAAAAAAAAATA" ++ "ACAGGTTG").data
    "ACGT".data "AAAAAAAAAAAAAATA".data (by rfl)

/-! ## First-occurrence semantics of `str.find` -/

theorem subIdx?_eq_first (pat : List Char) (l : List Char) (i : Nat)
    (hocc : pat.IsPrefix (l.drop i))
    (hfirst : ∀ j, j < i → ¬ pat.IsPrefix (l.drop j)) :
    subIdx? pat l = some i := by
  induction l generalizing i with
  | nil =>
      cases i with
      | zero =>
          simp only [List.drop_nil] at hocc
          rw [subIdx?, if_pos (List.isPrefixOf_iff_prefix.mpr hocc)]
      | succ i' =>
          simp only [List.drop_nil] at hocc
          exact absurd hocc (hfirst 0 (Nat.succ_pos i'))
  | cons c rest ih =>
      by_cases hp : pat.IsPrefix (c :: rest)
      · cases i with
        | zero => rw [subIdx?, if_pos (List.isPrefixOf_iff_prefix.mpr hp)]
        | succ i' => exact absurd hp (hfirst 0 (Nat.succ_pos i'))
      · cases i with
        | zero => exact absurd hocc hp
        | succ i' =>
            rw [subIdx?,
              if_neg (fun hb => hp (List.isPrefixOf_iff_prefix.mp hb)),
              ih i' hocc (fun j hj => hfirst (j + 1) (Nat.succ_lt_succ hj))]
            rfl

/-- C3 counterexample: in the read
`"ACGT" + "TAACAGGTTGAAAATA" + "ACAGGTTG"`, the first occurrence of
`TAACAGGTTG` is at index 4, so the first-match computation gives
genomic-segment length `4 + 2 − 4 = 2`, outside the window — the claim
predicts exclusion.  The aggregating extractor nevertheless accepts the
read and counts it under `("ACGT", "TAACAGGTTGAAAATA")`. -/
theorem extract_accepts_despite_early_anchor :
    pyFind ("ACGT" ++ "TAACAGGTTGAAAATA" ++ "ACAGGTTG") "TAACAGGTTG" = 4 ∧
      extract_chromosome_sequence ["ACGT" ++ "TAACAGGTTGAAAATA" ++ "ACAGGTTG"]
        = [("ACGT", [("TAACAGGTTGAAAATA", 1)])] := by
  refine ⟨rfl, rfl⟩

/-- C3 (amended): the first-match rule holds of `trim_fastq`, not of the
aggregating extractor: `trim_fastq` accepts a read exactly when the *first*
occurrence of `TAACAGGTTG` (at index `i`, giving genomic length
`i + 2 − 4`) lies in the window, i.e. when `18 ≤ i < 20`; an early
occurrence outside the window forces rejection even when a later occurrence
would satisfy it. -/
theorem trimAccept_first_match (s : String) (i : Nat)
    (hocc : anchorOccursAt s i)
    (hfirst : ∀ j, j < i → ¬ anchorOccursAt s j) :
    trimAccept s = true ↔ (18 ≤ i ∧ i < 20) := by
  have hidx : subIdx? "TAACAGGTTG".data s.data = some i :=
    subIdx?_eq_first _ _ i hocc hfirst
  unfold trimAccept pyFind
  rw [hidx]
  simp only [decide_eq_true_eq]
  omega

/-- Witness for the amended C3 theorem: in
`"ACGT" + "TAACAGGTTG" + "AAAA" + "TAACAGGTTG"` the anchor also occurs at
index 18 — which lies inside the window — yet the read is rejected because
the first occurrence is at index 4. -/
theorem trimAccept_first_match_witness :
    anchorOccursAt ("ACGT" ++ "TAACAGGTTG" ++ "AAAA" ++ "TAACAGGTTG") 18 ∧
      trimAccept ("ACGT" ++ "TAACAGGTTG" ++ "AAAA" ++ "TAACAGGTTG") = false := by
  refine ⟨by decide, ?_⟩
  have h := trimAccept_first_match ("ACGT" ++ "TAACAGGTTG" ++ "AAAA" ++ "TAACAGGTTG") 4
    (by decide) (by decide)
  rcases hb : trimAccept ("ACGT" ++ "TAACAGGTTG" ++ "AAAA" ++ "TAACAGGTTG") with - | -
  · rfl
  · have := h.mp hb
    omega

/-! ## The acceptance window of the extractor -/

theorem drop_barcode_anchor (bc seg : List Char) (hbc : bc.length = 4) (k : Nat) :
    (bc ++ (seg ++ anchorL)).drop (4 + k)
      = seg.drop k ++ anchorL.drop (k - seg.length) := by
  rw [List.drop_append_eq_append_drop, List.drop_of_length_le (by omega),
    List.drop_append_eq_append_drop, hbc]
  simp [Nat.add_sub_cancel_left, Nat.sub_sub]

theorem tryLen_none_of_short (bc seg : List Char) (hbc : bc.length = 4) (k : Nat)
    (hlt : seg.length < k) :
    tryLen (bc ++ (seg ++ anchorL)) k = none := by
  unfold tryLen
  rw [if_neg]
  rintro ⟨-, -, -, -, h5⟩
  rw [drop_barcode_anchor bc seg hbc k,
    List.drop_of_length_le (Nat.le_of_lt hlt), List.nil_append] at h5
  have hlen := congrArg List.length h5
  have h8 : anchorL.length = 8 := rfl
  rw [List.length_take, List.length_drop, h8] at hlen
  omega

theorem tryLen_none_of_long (bc seg : List Char) (hbc : bc.length = 4) (k : Nat)
    (hgt : k < seg.length) (hk16 : 16 ≤ k) (hle : seg.length ≤ 18) :
    tryLen (bc ++ (seg ++ anchorL)) k = none := by
  unfold tryLen
  rw [if_neg]
  rintro ⟨-, -, -, -, h5⟩
  rw [drop_barcode_anchor bc seg hbc k, Nat.sub_eq_zero_of_le (Nat.le_of_lt hgt),
    List.drop_zero, List.take_append_eq_append_take,
    List.take_of_length_le (by rw [List.length_drop]; omega)] at h5
  have hdl : (seg.drop k).length = seg.length - k := List.length_drop k seg
  have h6 := congrArg (List.drop (seg.length - k)) h5
  rw [List.drop_append_eq_append_drop, List.drop_of_length_le (by omega),
    List.nil_append, hdl, Nat.sub_self, List.drop_zero] at h6
  have hd : seg.length - k = 1 ∨ seg.length - k = 2 := by omega
  rcases hd with hd | hd <;> rw [hd] at h6 <;> exact absurd h6 (by decide)

theorem tryLen_append_some (bc seg : List Char) (hbc : bc.length = 4)
    (hbcA : bc.all isACGT = true) (hseg : segOk seg = true) :
    tryLen (bc ++ (seg ++ anchorL)) seg.length = some (bc, seg) := by
  have ht4 : (bc ++ (seg ++ anchorL)).take 4 = bc := List.take_left' hbc
  have hd4 : (bc ++ (seg ++ anchorL)).drop 4 = seg ++ anchorL := List.drop_left' hbc
  have hsegSlice : ((bc ++ (seg ++ anchorL)).drop 4).take seg.length = seg := by
    rw [hd4, List.take_append_of_le_length (Nat.le_refl _), List.take_length]
  have hanch : ((bc ++ (seg ++ anchorL)).drop (4 + seg.length)).take 8 = anchorL := by
    rw [drop_barcode_anchor bc seg hbc seg.length, List.drop_length,
      Nat.sub_self, List.drop_zero, List.nil_append]
    exact List.take_of_length_le (by rw [show anchorL.length = 8 from rfl])
  unfold tryLen
  rw [if_pos ⟨by rw [ht4, hbc], by rw [ht4]; exact hbcA,
    by rw [hsegSlice], by rw [hsegSlice]; exact hseg, hanch⟩, ht4, hsegSlice]

/-- C5 counterexample: the read
`"ACGT" + "ANAAAAAAAAAAAATA" + "ACAGGTTG"` carries a 16-base genomic segment
ending in `TA` followed by the anchor, yet the extractor rejects it: the
regex requires every segment base after the first to be in `[ACGT]`, and the
`N` in position 2 of the segment fails that class. -/
theorem sixteen_seg_with_N_rejected :
    "ANAAAAAAAAAAAATA".data.length = 16 ∧
      "ANAAAAAAAAAAAATA".data.drop 14 = ['T', 'A'] ∧
      extract_chromosome_sequence ["ACGT" ++ "ANAAAAAAAAAAAATA" ++ "ACAGGTTG"] = [] := by
  refine ⟨rfl, rfl, rfl⟩

/-- C5 (amended): for a read built as a length-4 `[ACGT]` barcode, a genomic
segment of the regex's character shape (`[NACGT]` head, `[ACGT]` middle,
trailing `TA`) of length at most 18, followed by the anchor `ACAGGTTG`, the
extractor accepts exactly when the segment length is 16 or 17; 15- and
18-base variants are silently rejected. -/
theorem accept_iff_window (bc seg : List Char)
    (hbc4 : bc.length = 4) (hbcA : bc.all isACGT = true)
    (hseg : segOk seg = true) (hlen : seg.length ≤ 18) :
    (reSearch (bc ++ (seg ++ anchorL))).isSome
      = (seg.length = 16 || seg.length = 17) := by
  unfold reSearch
  by_cases h17 : seg.length = 17
  · have hs := tryLen_append_some bc seg hbc4 hbcA hseg
    rw [h17] at hs
    rw [hs]
    simp [h17]
  · by_cases h16 : seg.length = 16
    · have hn := tryLen_none_of_short bc seg hbc4 17 (by omega)
      have hs := tryLen_append_some bc seg hbc4 hbcA hseg
      rw [h16] at hs
      rw [hn, hs]
      simp [h16]
    · have hcase : seg.length < 16 ∨ seg.length = 18 := by omega
      rcases hcase with hlt | h18
      · rw [tryLen_none_of_short bc seg hbc4 17 (by omega),
          tryLen_none_of_short bc seg hbc4 16 (by omega)]
        simp [h16, h17]
      · rw [tryLen_none_of_long bc seg hbc4 17 (by omega) (by omega) hlen,
          tryLen_none_of_long bc seg hbc4 16 (by omega) (by omega) hlen]
        simp [h16, h17]

/-- Witness for the amended C5 theorem: the spec's synthetic read with
barcode `ACGT` and the 16-base all-`A` segment ending in `TA` is accepted. -/
theorem accept_iff_window_witness :
    (reSearch ("ACGT".data ++ ("AAAAAAAAAAAAAATA".data ++ anchorL))).isSome = true := by
  rw [accept_iff_window "ACGT".data "AAAAAAAAAAAAAATA".data rfl rfl rfl (by decide)]
  decide

/-! ## Aggregation-map invariants -/

theorem innerTotal_incrInner (inner : List (String × Nat)) (seg : String) :
    innerTotal (incrInner inner seg) = innerTotal inner + 1 := by
  induction inner with
  | nil => rfl
  | cons p rest ih =>
      obtain ⟨k, v⟩ := p
      by_cases hk : k = seg
      · rw [incrInner, if_pos hk]
        simp [innerTotal]
        omega
      · rw [incrInner, if_neg hk]
        simp only [innerTotal, List.map_cons, List.sum_cons] at ih ⊢
        omega

theorem aggTotal_incrAgg (m : AggMap) (bc seg : String) :
    aggTotal (incrAgg m bc seg) = aggTotal m + 1 := by
  induction m with
  | nil => rfl
  | cons p rest ih =>
      obtain ⟨k, inner⟩ := p
      by_cases hk : k = bc
      · rw [incrAgg, if_pos hk]
        simp only [aggTotal, List.map_cons, List.sum_cons, innerTotal_incrInner]
        omega
      · rw [incrAgg, if_neg hk]
        simp only [aggTotal, List.map_cons, List.sum_cons] at ih ⊢
        omega

theorem incrInner_pos (inner : List (String × Nat)) (seg : String)
    (h : ∀ p ∈ inner, 1 ≤ p.2) : ∀ p ∈ incrInner inner seg, 1 ≤ p.2 := by
  induction inner with
  | nil =>
      intro p hp
      simp [incrInner] at hp
      simp [hp]
  | cons q rest ih =>
      obtain ⟨k, v⟩ := q
      intro p hp
      by_cases hk : k = seg
      · simp [incrInner, hk] at hp
        rcases hp with rfl | hp
        · simp
        · exact h p (List.mem_cons_of_mem _ hp)
      · simp only [incrInner, if_neg hk, List.mem_cons] at hp
        rcases hp with rfl | hp
        · exact h (k, v) (List.mem_cons_self _ _)
        · exact ih (fun q hq => h q (List.mem_cons_of_mem _ hq)) p hp

theorem incrAgg_pos (m : AggMap) (bc seg : String)
    (h : ∀ q ∈ m, ∀ p ∈ q.2, 1 ≤ p.2) :
    ∀ q ∈ incrAgg m bc seg, ∀ p ∈ q.2, 1 ≤ p.2 := by
  induction m with
  | nil =>
      intro q hq p hp
      simp [incrAgg] at hq
      subst hq
      simp at hp
      simp [hp]
  | cons e rest ih =>
      obtain ⟨k, inner⟩ := e
      intro q hq p hp
      by_cases hk : k = bc
      · simp only [incrAgg, if_pos hk, List.mem_cons] at hq
        rcases hq with rfl | hq
        · exact incrInner_pos inner seg
            (fun r hr => h (k, inner) (List.mem_cons_self _ _) r hr) p hp
        · exact h q (List.mem_cons_of_mem _ hq) p hp
      · simp only [incrAgg, if_neg hk, List.mem_cons] at hq
        rcases hq with rfl | hq
        · exact h (k, inner) (List.mem_cons_self _ _) p hp
        · exact ih (fun r hr => h r (List.mem_cons_of_mem _ hr)) q hq p hp

theorem innerCount_mono (inner : List (String × Nat)) (seg seg' : String) :
    (alGet inner seg').getD 0 ≤ (alGet (incrInner inner seg) seg').getD 0 := by
  induction inner with
  | nil =>
      by_cases hs : seg = seg'
      · subst hs; simp [incrInner, alGet]
      · simp [incrInner, alGet, hs]
  | cons p rest ih =>
      obtain ⟨k, v⟩ := p
      by_cases hk : k = seg
      · subst hk
        rw [incrInner, if_pos rfl]
        by_cases hk' : k = seg'
        · subst hk'
          simp [alGet]
        · simp [alGet, hk']
      · rw [incrInner, if_neg hk]
        by_cases hk' : k = seg'
        · subst hk'
          simp [alGet]
        · simp [alGet, hk', ih]

theorem aggCount_mono_incr (m : AggMap) (bc seg bc' seg' : String) :
    aggCount m bc' seg' ≤ aggCount (incrAgg m bc seg) bc' seg' := by
  induction m with
  | nil =>
      by_cases hb : bc = bc'
      · subst hb
        by_cases hs : seg = seg'
        · subst hs; simp [incrAgg, aggCount, alGet]
        · simp [incrAgg, aggCount, alGet, hs]
      · simp [incrAgg, aggCount, alGet, hb]
  | cons e rest ih =>
      obtain ⟨k, inner⟩ := e
      by_cases hk : k = bc
      · subst hk
        rw [incrAgg, if_pos rfl]
        by_cases hk' : k = bc'
        · subst hk'
          simp only [aggCount, alGet, if_pos rfl]
          exact innerCount_mono inner seg seg'
        · simp only [aggCount, alGet, if_neg hk']
          exact Nat.le_refl _
      · rw [incrAgg, if_neg hk]
        by_cases hk' : k = bc'
        · subst hk'
          simp only [aggCount, alGet, if_pos rfl]
          exact Nat.le_refl _
        · simp only [aggCount, alGet, if_neg hk']
          exact ih

theorem extract_fold_pos (reads : List String) (m : AggMap)
    (h : ∀ q ∈ m, ∀ p ∈ q.2, 1 ≤ p.2) :
    ∀ q ∈ reads.foldl extractStep m, ∀ p ∈ q.2, 1 ≤ p.2 := by
  induction reads generalizing m with
  | nil => exact h
  | cons r rest ih =>
      refine ih (extractStep m r) ?_
      unfold extractStep
      rcases reSearch r.data with - | ⟨bc, seg⟩
      · exact h
      · exact incrAgg_pos m ⟨bc⟩ ⟨seg⟩ h

theorem extract_fold_total (reads : List String) (m : AggMap) :
    aggTotal (reads.foldl extractStep m) = aggTotal m + acceptedCount reads := by
  induction reads generalizing m with
  | nil => rfl
  | cons r rest ih =>
      rw [List.foldl_cons, ih]
      unfold acceptedCount extractStep
      rcases hr : reSearch r.data with - | ⟨bc, seg⟩
      · simp [List.filter_cons, hr, acceptedCount]
      · simp [List.filter_cons, hr, acceptedCount, aggTotal_incrAgg]
        omega

theorem alGet_some_mem {α : Type} (m : List (String × α)) (k : String) (v : α)
    (h : alGet m k = some v) : (k, v) ∈ m := by
  induction m with
  | nil => exact absurd h (by simp [alGet])
  | cons p rest ih =>
      obtain ⟨a, w⟩ := p
      by_cases ha : a = k
      · subst ha
        rw [alGet, if_pos rfl, Option.some.injEq] at h
        subst h
        exact List.mem_cons_self _ _
      · rw [alGet, if_neg ha] at h
        exact List.mem_cons_of_mem _ (ih h)

/-- C8: at every point of extraction (i.e. for every read stream), every
count stored in the aggregation map is at least 1, the counts sum to the
number of accepted reads, and processing one further read never decreases
any stored count — entries are never removed or decremented. -/
theorem extract_aggregation_invariants (reads : List String) :
    (∀ bc inner, alGet (extract_chromosome_sequence reads) bc = some inner →
       ∀ seg c, alGet inner seg = some c → 1 ≤ c)
    ∧ aggTotal (extract_chromosome_sequence reads) = acceptedCount reads
    ∧ (∀ (r : String) (bc seg : String),
        aggCount (extract_chromosome_sequence reads) bc seg ≤
          aggCount (extract_chromosome_sequence (reads ++ [r])) bc seg) := by
  refine ⟨?_, ?_, ?_⟩
  · intro bc inner hbc seg c hseg
    have hmem := alGet_some_mem _ _ _ hbc
    have hmem' := alGet_some_mem _ _ _ hseg
    exact extract_fold_pos reads [] (by simp) (bc, inner) hmem (seg, c) hmem'
  · have h := extract_fold_total reads []
    simpa [aggTotal] using h
  · intro r bc seg
    unfold extract_chromosome_sequence
    rw [List.foldl_append, List.foldl_cons, List.foldl_nil]
    unfold extractStep
    rcases reSearch r.data with - | ⟨b, s⟩
    · exact Nat.le_refl _
    · exact aggCount_mono_incr _ _ _ _ _

/-- Witness for C8 at a concrete two-read stream: the count stored for
`("ACGT", "AAAAAAAAAAAAAATA")` is 2 ≥ 1, and the total equals the number of
accepted reads. -/
theorem extract_aggregation_invariants_witness :
    (1 ≤ 2) ∧
      aggTotal (extract_chromosome_sequence
          ["ACGT" ++ "AAAAAAAAAAAAAATA" ++ "ACAGGTTG",
           "ACGT" ++ "AAAAAAAAAAAAAATA" ++ "ACAGGTTG"])
        = acceptedCount
            ["ACGT" ++ "AAAAAAAAAAAAAATA" ++ "ACAGGTTG",
             "ACGT" ++ "AAAAAAAAAAAAAATA" ++ "ACAGGTTG"] := by
  refine ⟨?_, (extract_aggregation_invariants _).2.1⟩
  exact (extract_aggregation_invariants
      ["ACGT" ++ "AAAAAAAAAAAAAATA" ++ "ACAGGTTG",
       "ACGT" ++ "AAAAAAAAAAAAAATA" ++ "ACAGGTTG"]).1
    "ACGT" [("AAAAAAAAAAAAAATA", 2)] (by rfl) "AAAAAAAAAAAAAATA" 2 (by rfl)

/-! ## Barcode classifier (src/demultiplex.py lines 47-105)

```python
barcodes_dict = {}
for sample in samples_dict:
    barcodes_dict[sample] = samples_dict[sample]['barcode']
barcodes_dict['_other'] = '_other'
demultiplex_dict = {}
for sampleName, barcode in barcodes_dict.items():
    demultiplex_dict[barcode] = []
nreads = 0
for read in seqfile:
    try:
        barcode = read.sequence[0:4]
        demultiplex_dict[barcode].append(read)
    except:
        demultiplex_dict['_other'].append(read)
    nreads += 1
    if nreads % 1E6 == 0:
        writeReads(demultiplex_dict, barcodes_dict, experiment)
        for sampleName in demultiplex_dict:
            demultiplex_dict[sampleName] = []
writeReads(demultiplex_dict, barcodes_dict, experiment)
```

`writeReads` appends, for each `(sampleName, barcode)` of `barcodes_dict`,
the bucket stored under `barcode` to the file named after `sampleName`.
Output files are modelled as an association list sample-name → reads
appended so far; each `writeReads` call is also recorded as a snapshot of
the buffers, so the flush schedule is observable.
-/

/-- A FASTQ record as parsed by screed. -/
structure Read where
  name : String
  sequence : String
  quality : String
deriving DecidableEq

/-- `read.sequence[0:4]`. -/
def prefix4 (r : Read) : String := ⟨r.sequence.data.take 4⟩

/-- `barcodes_dict`: the samples' `(name, barcode)` pairs followed by the
synthetic `('_other', '_other')` entry. -/
def barcodesList (samples : List (String × String)) : List (String × String) :=
  samples ++ [("_other", "_other")]

/-- `demultiplex_dict` right after initialization: one empty bucket per
distinct barcode, in first-insertion order. -/
def initBuffers (bl : List (String × String)) : List (String × List Read) :=
  bl.foldl (fun acc p => if p.2 ∈ acc.map Prod.fst then acc else acc ++ [(p.2, [])]) []

/-- Per-sample output files, initially empty. -/
def initFiles (bl : List (String × String)) : List (String × List Read) :=
  bl.map (fun p => (p.1, []))

/-- Classify one read: append it to the bucket of its 4-character prefix
when that prefix is a key of `demultiplex_dict` (the `try` branch), else to
`_other` (the `except KeyError` branch). -/
def classifyStep (bufs : List (String × List Read)) (r : Read) :
    List (String × List Read) :=
  if (alGet bufs (prefix4 r)).isSome then alUpdate bufs (prefix4 r) (· ++ [r])
  else alUpdate bufs "_other" (· ++ [r])

/-- `writeReads`: for each `(sampleName, barcode)` pair, append the bucket
stored under `barcode` to the file of `sampleName`. -/
def writeReads (demultiplex_dict : List (String × List Read))
    (barcodes_dict : List (String × String))
    (files : List (String × List Read)) : List (String × List Read) :=
  barcodes_dict.foldl
    (fun fs p => alUpdate fs p.1 (· ++ alGetD demultiplex_dict p.2)) files

/-- Clearing of `demultiplex_dict` after a flush. -/
def clearBuffers (bufs : List (String × List Read)) : List (String × List Read) :=
  bufs.map (fun p => (p.1, ([] : List Read)))

/-- State of the classifier loop: buffers, processed-read count, file
contents, and the recorded flush snapshots. -/
structure DState where
  buffers : List (String × List Read)
  nreads : Nat
  files : List (String × List Read)
  flushes : List (List (String × List Read))

/-- One iteration of the read loop with flush threshold `N`
(`N = 10^6` in the source). -/
def demultiplexStep (N : Nat) (bl : List (String × String)) (st : DState)
    (r : Read) : DState :=
  let bufs := classifyStep st.buffers r
  let n := st.nreads + 1
  if n % N = 0 then
    { buffers := clearBuffers bufs, nreads := n,
      files := writeReads bufs bl st.files, flushes := st.flushes ++ [bufs] }
  else
    { buffers := bufs, nreads := n, files := st.files, flushes := st.flushes }

/-- The whole loop of `demultiplex_fastq` with flush threshold `N`,
including the unconditional final `writeReads`. -/
def demultiplexRun (N : Nat) (samples : List (String × String))
    (input : List Read) : DState :=
  let bl := barcodesList samples
  let st := input.foldl (demultiplexStep N bl)
    { buffers := initBuffers bl, nreads := 0, files := initFiles bl, flushes := [] }
  { buffers := st.buffers, nreads := st.nreads,
    files := writeReads st.buffers bl st.files,
    flushes := st.flushes ++ [st.buffers] }

/-- `demultiplex_fastq` from src/demultiplex.py: the run at the source's
hard-coded threshold `10^6`. -/
def demultiplex_fastq (samples : List (String × String)) (input : List Read) :
    DState :=
  demultiplexRun 1000000 samples input

/-- The keys of `demultiplex_dict`: distinct barcodes plus `_other`. -/
def bucketKeys (samples : List (String × String)) : List String :=
  (initBuffers (barcodesList samples)).map Prod.fst

/-- The bucket key a read is classified to: its 4-character prefix when that
is a configured key, else `_other`. -/
def classifyKey (samples : List (String × String)) (r : Read) : String :=
  if prefix4 r ∈ bucketKeys samples then prefix4 r else "_other"

/-- Number of reads held in a buffer snapshot, summed over all buckets. -/
def flushTotal (snapshot : List (String × List Read)) : Nat :=
  (snapshot.map (fun p => p.2.length)).sum

/-! ## Key-set and buffer lemmas for the classifier -/

theorem alGet_isSome_iff_mem {α : Type} (m : List (String × α)) (k : String) :
    (alGet m k).isSome = true ↔ k ∈ m.map Prod.fst := by
  constructor
  · intro h
    by_contra hmem
    rw [alGet_eq_none_of_not_mem_keys m k hmem] at h
    exact absurd h (by simp)
  · exact alGet_isSome_of_mem_keys m k

theorem alGetD_alUpdate_append {α : Type} (m : List (String × List α)) (k : String)
    (xs : List α) (h : (alGet m k).isSome = true) :
    alGetD (alUpdate m k (· ++ xs)) k = alGetD m k ++ xs := by
  rcases hv : alGet m k with - | v
  · rw [hv] at h; exact absurd h (by simp)
  · unfold alGetD
    rw [alGet_alUpdate, if_pos rfl, hv]
    rfl

theorem alGetD_alUpdate_ne {α : Type} (m : List (String × List α)) (k k' : String)
    (f : List α → List α) (h : ¬k = k') :
    alGetD (alUpdate m k f) k' = alGetD m k' := by
  unfold alGetD
  rw [alGet_alUpdate, if_neg h]

theorem initBuffers_go_mem (bl : List (String × String))
    (acc : List (String × List Read)) (x : String) :
    x ∈ ((bl.foldl (fun acc p =>
          if p.2 ∈ acc.map Prod.fst then acc else acc ++ [(p.2, [])]) acc).map Prod.fst)
      ↔ x ∈ acc.map Prod.fst ∨ x ∈ bl.map Prod.snd := by
  induction bl generalizing acc with
  | nil => simp
  | cons p rest ih =>
      rw [List.foldl_cons]
      by_cases hmem : p.2 ∈ acc.map Prod.fst
      · rw [if_pos hmem, ih]
        simp only [List.map_cons, List.mem_cons]
        constructor
        · rintro (h | h)
          · exact Or.inl h
          · exact Or.inr (Or.inr h)
        · rintro (h | h | h)
          · exact Or.inl h
          · exact Or.inl (h ▸ hmem)
          · exact Or.inr h
      · rw [if_neg hmem, ih]
        simp only [List.map_append, List.mem_append, List.map_cons, List.mem_cons,
          List.map_nil, List.mem_singleton, List.not_mem_nil, or_false]
        constructor
        · rintro ((h | h) | h)
          · exact Or.inl h
          · exact Or.inr (Or.inl h)
          · exact Or.inr (Or.inr h)
        · rintro (h | h | h)
          · exact Or.inl (Or.inl h)
          · exact Or.inl (Or.inr h)
          · exact Or.inr h

theorem mem_bucketKeys (samples : List (String × String)) (x : String) :
    x ∈ bucketKeys samples ↔ x ∈ (barcodesList samples).map Prod.snd := by
  unfold bucketKeys initBuffers
  rw [initBuffers_go_mem]
  simp

theorem other_mem_bucketKeys (samples : List (String × String)) :
    "_other" ∈ bucketKeys samples := by
  rw [mem_bucketKeys]
  simp [barcodesList]

theorem initBuffers_go_nodup (bl : List (String × String))
    (acc : List (String × List Read)) (hacc : (acc.map Prod.fst).Nodup) :
    ((bl.foldl (fun acc p =>
        if p.2 ∈ acc.map Prod.fst then acc else acc ++ [(p.2, [])]) acc).map Prod.fst).Nodup := by
  induction bl generalizing acc with
  | nil => exact hacc
  | cons p rest ih =>
      rw [List.foldl_cons]
      by_cases hmem : p.2 ∈ acc.map Prod.fst
      · rw [if_pos hmem]
        exact ih acc hacc
      · rw [if_neg hmem]
        refine ih _ ?_
        simp only [List.map_append, List.map_cons, List.map_nil]
        rw [List.nodup_append]
        refine ⟨hacc, List.nodup_singleton _, ?_⟩
        intro a ha hb
        simp only [List.mem_singleton] at hb
        exact hmem (hb ▸ ha)

theorem bucketKeys_nodup (samples : List (String × String)) :
    (bucketKeys samples).Nodup :=
  initBuffers_go_nodup _ [] (by simp)

theorem initBuffers_go_values (bl : List (String × String))
    (acc : List (String × List Read)) (hacc : ∀ p ∈ acc, p.2 = ([] : List Read)) :
    ∀ p ∈ (bl.foldl (fun acc p =>
        if p.2 ∈ acc.map Prod.fst then acc else acc ++ [(p.2, [])]) acc), p.2 = ([] : List Read) := by
  induction bl generalizing acc with
  | nil => exact hacc
  | cons p rest ih =>
      rw [List.foldl_cons]
      by_cases hmem : p.2 ∈ acc.map Prod.fst
      · rw [if_pos hmem]
        exact ih acc hacc
      · rw [if_neg hmem]
        refine ih _ ?_
        intro q hq
        rw [List.mem_append] at hq
        rcases hq with hq | hq
        · exact hacc q hq
        · simp only [List.mem_singleton] at hq
          rw [hq]

theorem alGetD_initBuffers (samples : List (String × String)) (b : String) :
    alGetD (initBuffers (barcodesList samples)) b = [] := by
  rcases hv : alGet (initBuffers (barcodesList samples)) b with - | v
  · unfold alGetD; rw [hv]; rfl
  · unfold alGetD
    rw [hv]
    exact initBuffers_go_values _ [] (by simp) (b, v) (alGet_some_mem _ _ _ hv)

theorem alGetD_initFiles (bl : List (String × String)) (name : String) :
    alGetD (initFiles bl) name = [] := by
  unfold initFiles
  induction bl with
  | nil => rfl
  | cons p rest ih =>
      rw [List.map_cons]
      unfold alGetD alGet
      by_cases hp : p.1 = name
      · rw [if_pos hp]
        rfl
      · rw [if_neg hp]
        exact ih

theorem classifyStep_keys (bufs : List (String × List Read)) (r : Read) :
    (classifyStep bufs r).map Prod.fst = bufs.map Prod.fst := by
  unfold classifyStep
  split <;> exact alUpdate_keys ..

theorem clearBuffers_keys (bufs : List (String × List Read)) :
    (clearBuffers bufs).map Prod.fst = bufs.map Prod.fst := by
  unfold clearBuffers
  rw [List.map_map]
  rfl

theorem alGetD_clearBuffers (bufs : List (String × List Read)) (k : String) :
    alGetD (clearBuffers bufs) k = [] := by
  induction bufs with
  | nil => rfl
  | cons p rest ih =>
      unfold clearBuffers at ih ⊢
      rw [List.map_cons]
      unfold alGetD alGet
      by_cases hp : p.1 = k
      · rw [if_pos hp]
        rfl
      · rw [if_neg hp]
        exact ih

theorem writeReads_keys (bufs : List (String × List Read))
    (bl : List (String × String)) (files : List (String × List Read)) :
    (writeReads bufs bl files).map Prod.fst = files.map Prod.fst := by
  unfold writeReads
  induction bl generalizing files with
  | nil => rfl
  | cons p rest ih =>
      rw [List.foldl_cons, ih, alUpdate_keys]

theorem writeReads_getD_notmem (bufs : List (String × List Read))
    (bl : List (String × String)) (files : List (String × List Read))
    (name : String) (h : name ∉ bl.map Prod.fst) :
    alGetD (writeReads bufs bl files) name = alGetD files name := by
  unfold writeReads
  induction bl generalizing files with
  | nil => rfl
  | cons p rest ih =>
      rw [List.map_cons, List.mem_cons] at h
      push_neg at h
      rw [List.foldl_cons, ih _ h.2, alGetD_alUpdate_ne _ _ _ _ (fun hh => h.1 hh.symm)]

theorem writeReads_getD (bufs : List (String × List Read))
    (bl : List (String × String)) (files : List (String × List Read))
    (hnodup : (bl.map Prod.fst).Nodup)
    (hkeys : ∀ q ∈ bl, q.1 ∈ files.map Prod.fst) :
    ∀ name bc, (name, bc) ∈ bl →
      alGetD (writeReads bufs bl files) name = alGetD files name ++ alGetD bufs bc := by
  induction bl generalizing files with
  | nil => intro name bc h; exact absurd h (List.not_mem_nil _)
  | cons p rest ih =>
      intro name bc hmem
      rw [List.map_cons] at hnodup
      have hnotrest : p.1 ∉ rest.map Prod.fst := (List.nodup_cons.mp hnodup).1
      rw [List.mem_cons] at hmem
      rcases hmem with rfl | hmem
      · show alGetD (writeReads bufs ((name, bc) :: rest) files) name = _
        unfold writeReads
        rw [List.foldl_cons]
        show alGetD (writeReads bufs rest _) name = _
        rw [writeReads_getD_notmem _ _ _ _ hnotrest,
          alGetD_alUpdate_append _ _ _
            (alGet_isSome_of_mem_keys _ _ (hkeys (name, bc) (List.mem_cons_self _ _)))]
      · show alGetD (writeReads bufs (p :: rest) files) name = _
        unfold writeReads
        rw [List.foldl_cons]
        show alGetD (writeReads bufs rest (alUpdate files p.1 _)) name = _
        have hname : name ∈ rest.map Prod.fst :=
          List.mem_map_of_mem Prod.fst hmem
        have hne : ¬p.1 = name := fun hh => hnotrest (hh ▸ hname)
        rw [ih _ (List.nodup_cons.mp hnodup).2
          (fun q hq => by rw [alUpdate_keys]; exact hkeys q (List.mem_cons_of_mem _ hq))
          name bc hmem, alGetD_alUpdate_ne _ _ _ _ hne]

theorem classifyStep_getD (samples : List (String × String))
    (bufs : List (String × List Read)) (r : Read)
    (hkeys : bufs.map Prod.fst = bucketKeys samples) (b : String) :
    alGetD (classifyStep bufs r) b
      = alGetD bufs b ++ (if classifyKey samples r = b then [r] else []) := by
  unfold classifyStep classifyKey
  by_cases hp : (alGet bufs (prefix4 r)).isSome = true
  · rw [if_pos hp]
    have hmem : prefix4 r ∈ bucketKeys samples := by
      rw [← hkeys]
      exact (alGet_isSome_iff_mem bufs (prefix4 r)).mp hp
    rw [if_pos hmem]
    by_cases hb : prefix4 r = b
    · subst hb
      rw [if_pos rfl, alGetD_alUpdate_append _ _ _ hp]
    · rw [if_neg hb, alGetD_alUpdate_ne _ _ _ _ hb, List.append_nil]
  · rw [if_neg hp]
    have hnotmem : prefix4 r ∉ bucketKeys samples := by
      rw [← hkeys]
      exact fun hm => hp ((alGet_isSome_iff_mem bufs (prefix4 r)).mpr hm)
    rw [if_neg hnotmem]
    have hoth : (alGet bufs "_other").isSome = true := by
      rw [alGet_isSome_iff_mem, hkeys]
      exact other_mem_bucketKeys samples
    by_cases hb : "_other" = b
    · subst hb
      rw [if_pos rfl, alGetD_alUpdate_append _ _ _ hoth]
    · rw [if_neg hb, alGetD_alUpdate_ne _ _ _ _ hb, List.append_nil]

theorem flushTotal_alUpdate_append (m : List (String × List Read)) (k : String)
    (r : Read) (h : (alGet m k).isSome = true) :
    flushTotal (alUpdate m k (· ++ [r])) = flushTotal m + 1 := by
  induction m with
  | nil => simp [alGet] at h
  | cons p rest ih =>
      obtain ⟨a, v⟩ := p
      by_cases ha : a = k
      · rw [alUpdate, if_pos ha]
        simp only [flushTotal, List.map_cons, List.sum_cons, List.length_append,
          List.length_singleton]
        omega
      · rw [alUpdate, if_neg ha]
        have h' : (alGet rest k).isSome = true := by
          rw [alGet, if_neg ha] at h
          exact h
        simp only [flushTotal, List.map_cons, List.sum_cons] at ih ⊢
        rw [ih h']
        omega

theorem flushTotal_classifyStep (samples : List (String × String))
    (bufs : List (String × List Read)) (r : Read)
    (hkeys : bufs.map Prod.fst = bucketKeys samples) :
    flushTotal (classifyStep bufs r) = flushTotal bufs + 1 := by
  unfold classifyStep
  by_cases hp : (alGet bufs (prefix4 r)).isSome = true
  · rw [if_pos hp]
    exact flushTotal_alUpdate_append _ _ _ hp
  · rw [if_neg hp]
    refine flushTotal_alUpdate_append _ _ _ ?_
    rw [alGet_isSome_iff_mem, hkeys]
    exact other_mem_bucketKeys samples

theorem flushTotal_eq_zero (m : List (String × List Read))
    (h : ∀ p ∈ m, p.2 = ([] : List Read)) : flushTotal m = 0 := by
  induction m with
  | nil => rfl
  | cons p rest ih =>
      simp only [flushTotal, List.map_cons, List.sum_cons]
      rw [h p (List.mem_cons_self _ _)]
      simpa [flushTotal] using ih (fun q hq => h q (List.mem_cons_of_mem _ hq))

theorem flushTotal_clearBuffers (bufs : List (String × List Read)) :
    flushTotal (clearBuffers bufs) = 0 := by
  refine flushTotal_eq_zero _ ?_
  intro p hp
  unfold clearBuffers at hp
  obtain ⟨q, -, rfl⟩ := List.mem_map.mp hp
  rfl

/-! ## The classifier loop invariant -/

theorem demuxStep_keys (N : Nat) (samples : List (String × String)) (st : DState)
    (r : Read)
    (hbk : st.buffers.map Prod.fst = bucketKeys samples)
    (hfk : st.files.map Prod.fst = (barcodesList samples).map Prod.fst) :
    (demultiplexStep N (barcodesList samples) st r).buffers.map Prod.fst = bucketKeys samples ∧
      (demultiplexStep N (barcodesList samples) st r).files.map Prod.fst
        = (barcodesList samples).map Prod.fst := by
  unfold demultiplexStep
  by_cases hf : (st.nreads + 1) % N = 0
  · rw [if_pos hf]
    exact ⟨by rw [clearBuffers_keys, classifyStep_keys, hbk],
      by rw [writeReads_keys, hfk]⟩
  · rw [if_neg hf]
    exact ⟨by rw [classifyStep_keys, hbk], hfk⟩

theorem demuxStep_base (N : Nat) (samples : List (String × String)) (st : DState)
    (r : Read)
    (hnames : ((barcodesList samples).map Prod.fst).Nodup)
    (hbk : st.buffers.map Prod.fst = bucketKeys samples)
    (hfk : st.files.map Prod.fst = (barcodesList samples).map Prod.fst)
    (name bc : String) (hmem : (name, bc) ∈ barcodesList samples) :
    alGetD (demultiplexStep N (barcodesList samples) st r).files name ++
        alGetD (demultiplexStep N (barcodesList samples) st r).buffers bc
      = alGetD st.files name ++ alGetD st.buffers bc ++
          (if classifyKey samples r = bc then [r] else []) := by
  unfold demultiplexStep
  by_cases hf : (st.nreads + 1) % N = 0
  · rw [if_pos hf]
    show alGetD (writeReads (classifyStep st.buffers r) _ st.files) name ++
      alGetD (clearBuffers (classifyStep st.buffers r)) bc = _
    rw [alGetD_clearBuffers, List.append_nil,
      writeReads_getD _ _ _ hnames
        (fun q hq => by rw [hfk]; exact List.mem_map_of_mem Prod.fst hq) name bc hmem,
      classifyStep_getD samples _ _ hbk, List.append_assoc]
  · rw [if_neg hf]
    show alGetD st.files name ++ alGetD (classifyStep st.buffers r) bc = _
    rw [classifyStep_getD samples _ _ hbk, List.append_assoc]

theorem demux_fold_files (N : Nat) (samples : List (String × String))
    (hnames : ((barcodesList samples).map Prod.fst).Nodup)
    (input : List Read) :
    ∀ (st : DState),
      st.buffers.map Prod.fst = bucketKeys samples →
      st.files.map Prod.fst = (barcodesList samples).map Prod.fst →
      ∀ name bc, (name, bc) ∈ barcodesList samples →
        alGetD (input.foldl (demultiplexStep N (barcodesList samples)) st).files name ++
            alGetD (input.foldl (demultiplexStep N (barcodesList samples)) st).buffers bc
          = alGetD st.files name ++ alGetD st.buffers bc ++
              input.filter (fun r => classifyKey samples r = bc) := by
  induction input with
  | nil =>
      intro st _ _ name bc _
      simp
  | cons r rest ih =>
      intro st hbk hfk name bc hmem
      rw [List.foldl_cons]
      obtain ⟨hbk', hfk'⟩ := demuxStep_keys N samples st r hbk hfk
      rw [ih _ hbk' hfk' name bc hmem,
        demuxStep_base N samples st r hnames hbk hfk name bc hmem,
        List.filter_cons]
      by_cases hc : classifyKey samples r = bc
      · simp [hc, List.append_assoc]
      · simp [hc]

theorem demux_fold_keys (N : Nat) (samples : List (String × String))
    (input : List Read) :
    ∀ (st : DState),
      st.buffers.map Prod.fst = bucketKeys samples →
      st.files.map Prod.fst = (barcodesList samples).map Prod.fst →
      (input.foldl (demultiplexStep N (barcodesList samples)) st).buffers.map Prod.fst
          = bucketKeys samples ∧
        (input.foldl (demultiplexStep N (barcodesList samples)) st).files.map Prod.fst
          = (barcodesList samples).map Prod.fst := by
  induction input with
  | nil => intro st h1 h2; exact ⟨h1, h2⟩
  | cons r rest ih =>
      intro st h1 h2
      rw [List.foldl_cons]
      obtain ⟨h1', h2'⟩ := demuxStep_keys N samples st r h1 h2
      exact ih _ h1' h2'

/-- The per-sample output file of a finished run is exactly the ordered
filter of the input stream by that sample's bucket key. -/
theorem demultiplexRun_files_filter (N : Nat) (samples : List (String × String))
    (input : List Read)
    (hnames : ((barcodesList samples).map Prod.fst).Nodup) :
    ∀ name bc, (name, bc) ∈ barcodesList samples →
      alGetD (demultiplexRun N samples input).files name
        = input.filter (fun r => classifyKey samples r = bc) := by
  intro name bc hmem
  have hinitb : (initBuffers (barcodesList samples)).map Prod.fst = bucketKeys samples := rfl
  have hinitf : (initFiles (barcodesList samples)).map Prod.fst
      = (barcodesList samples).map Prod.fst := by
    unfold initFiles
    rw [List.map_map]
    rfl
  obtain ⟨hkb, hkf⟩ := demux_fold_keys N samples input
    { buffers := initBuffers (barcodesList samples), nreads := 0,
      files := initFiles (barcodesList samples), flushes := [] } hinitb hinitf
  have hfold := demux_fold_files N samples hnames input
    { buffers := initBuffers (barcodesList samples), nreads := 0,
      files := initFiles (barcodesList samples), flushes := [] } hinitb hinitf name bc hmem
  show alGetD (writeReads _ (barcodesList samples) _) name = _
  rw [writeReads_getD _ _ _ hnames
    (fun q hq => by rw [hkf]; exact List.mem_map_of_mem Prod.fst hq) name bc hmem,
    hfold, alGetD_initFiles, alGetD_initBuffers]
  simp

/-! ## C4: the classifier partitions the input -/

theorem count_flatMap_filter (keys : List String) (f : Read → String)
    (input : List Read) (a : Read) :
    (keys.flatMap (fun k => input.filter (fun r => f r = k))).count a
      = keys.count (f a) * input.count a := by
  induction keys with
  | nil => simp
  | cons k rest ih =>
      rw [List.flatMap_cons, List.count_append, ih]
      by_cases hk : f a = k
      · rw [List.count_filter (by simp [hk]), ← hk, List.count_cons_self]
        ring
      · rw [List.count_eq_zero_of_not_mem
            (fun hmem => hk (by simpa using (List.mem_filter.mp hmem).2)),
          List.count_cons_of_ne hk]
        ring

theorem perm_flatMap_filter (keys : List String) (f : Read → String)
    (input : List Read) (hnodup : keys.Nodup)
    (hmem : ∀ r ∈ input, f r ∈ keys) :
    (keys.flatMap (fun k => input.filter (fun r => f r = k))).Perm input := by
  rw [List.perm_iff_count]
  intro a
  rw [count_flatMap_filter]
  by_cases ha : a ∈ input
  · rw [List.count_eq_one_of_mem hnodup (hmem a ha), Nat.one_mul]
  · rw [List.count_eq_zero_of_not_mem ha, Nat.mul_zero]

theorem flatMap_congr_mem {α β : Type} (l : List α) (g h : α → List β)
    (hcong : ∀ p ∈ l, g p = h p) : l.flatMap g = l.flatMap h := by
  induction l with
  | nil => rfl
  | cons p rest ih =>
      rw [List.flatMap_cons, List.flatMap_cons, hcong p (List.mem_cons_self _ _),
        ih (fun q hq => hcong q (List.mem_cons_of_mem _ hq))]

/-- C4: for a sample mapping with pairwise-distinct barcodes, every read goes
to exactly one bucket — the one of its 4-character prefix when that prefix is
a configured barcode, else `_other` — so each output file is the ordered
filter of the input by its bucket key (order preserved across flush
boundaries, no loss, no duplication), and the concatenation of all bucket
outputs is a permutation (multiset equality, disjoint partition) of the
input. -/
theorem demultiplex_partition (N : Nat) (samples : List (String × String))
    (input : List Read) (_hN : 0 < N)
    (hnames : ((barcodesList samples).map Prod.fst).Nodup)
    (hbcs : (samples.map Prod.snd).Nodup)
    (hother : "_other" ∉ samples.map Prod.snd) :
    (∀ name bc, (name, bc) ∈ barcodesList samples →
        alGetD (demultiplexRun N samples input).files name
          = input.filter (fun r => classifyKey samples r = bc))
    ∧ ((barcodesList samples).flatMap
          (fun p => alGetD (demultiplexRun N samples input).files p.1)).Perm input := by
  refine ⟨demultiplexRun_files_filter N samples input hnames, ?_⟩
  rw [flatMap_congr_mem _ _
    (fun p => input.filter (fun r => classifyKey samples r = p.2))
    (fun p hp => demultiplexRun_files_filter N samples input hnames p.1 p.2 hp)]
  rw [show (barcodesList samples).flatMap
        (fun p => input.filter (fun r => classifyKey samples r = p.2))
      = ((barcodesList samples).map Prod.snd).flatMap
        (fun b => input.filter (fun r => classifyKey samples r = b)) from
    (List.flatMap_map Prod.snd
      (fun b => input.filter (fun r => classifyKey samples r = b))
      (barcodesList samples)).symm]
  refine perm_flatMap_filter _ _ _ ?_ ?_
  · show ((samples ++ [("_other", "_other")]).map Prod.snd).Nodup
    rw [List.map_append, List.nodup_append]
    refine ⟨hbcs, by simp, ?_⟩
    intro a ha hb
    simp only [List.map_cons, List.map_nil, List.mem_singleton] at hb
    exact hother (hb ▸ ha)
  · intro r hr
    unfold classifyKey
    by_cases hmem : prefix4 r ∈ bucketKeys samples
    · rw [if_pos hmem]
      exact (mem_bucketKeys samples _).mp hmem
    · rw [if_neg hmem]
      simp [barcodesList]

/-- Witness for C4 at a concrete run: threshold 2, two samples, three reads
(one matching each barcode, one unmatched). -/
theorem demultiplex_partition_witness :
    alGetD (demultiplexRun 2 [("s1", "AAAA"), ("s2", "CCCC")]
        [⟨"r1", "AAAAGGGG", "q1"⟩, ⟨"r2", "TTTT", "q2"⟩, ⟨"r3", "CCCCA", "q3"⟩]).files "s1"
      = [⟨"r1", "AAAAGGGG", "q1"⟩] := by
  have h := (demultiplex_partition 2 [("s1", "AAAA"), ("s2", "CCCC")]
    [⟨"r1", "AAAAGGGG", "q1"⟩, ⟨"r2", "TTTT", "q2"⟩, ⟨"r3", "CCCCA", "q3"⟩]
    (by decide) (by decide) (by decide) (by decide)).1 "s1" "AAAA" (by decide)
  rw [h]
  rfl

/-! ## C7: flush schedule -/

theorem succ_mod_eq (N p : Nat) :
    (p + 1) % N = (p % N + 1) % N := by
  have hp : p + 1 = (p % N + 1) + N * (p / N) := by
    have h := Nat.div_add_mod p N
    omega
  rw [hp, Nat.add_mul_mod_self_left]

theorem succ_div_mod_flush (N p : Nat) (hN : 0 < N) (h : (p + 1) % N = 0) :
    p % N + 1 = N ∧ (p + 1) / N = p / N + 1 := by
  have hrlt : p % N < N := Nat.mod_lt _ hN
  have hmod : (p % N + 1) % N = 0 := by
    rw [← succ_mod_eq N p]
    exact h
  have hfull : p % N + 1 = N := by
    rcases Nat.lt_or_ge (p % N + 1) N with hlt | hge
    · rw [Nat.mod_eq_of_lt hlt] at hmod
      omega
    · omega
  refine ⟨hfull, ?_⟩
  have hp : p + 1 = N * (p / N + 1) := by
    have h1 := Nat.div_add_mod p N
    have h2 : N * (p / N + 1) = N * (p / N) + N := by ring
    omega
  rw [hp, Nat.mul_div_cancel_left _ hN]

theorem succ_div_mod_noflush (N p : Nat) (hN : 0 < N) (h : ¬(p + 1) % N = 0) :
    (p + 1) % N = p % N + 1 ∧ (p + 1) / N = p / N := by
  have hrlt : p % N < N := Nat.mod_lt _ hN
  have hme := succ_mod_eq N p
  have hlt : p % N + 1 < N := by
    rcases Nat.lt_or_ge (p % N + 1) N with hlt | hge
    · exact hlt
    · have hfull : p % N + 1 = N := by omega
      rw [hfull, Nat.mod_self] at hme
      exact absurd hme h
  constructor
  · rw [hme, Nat.mod_eq_of_lt hlt]
  · have hp : p + 1 = (p % N + 1) + N * (p / N) := by
      have h1 := Nat.div_add_mod p N
      omega
    rw [hp, Nat.add_mul_div_left _ _ hN, Nat.div_eq_of_lt hlt, Nat.zero_add]

theorem demux_fold_flush (N : Nat) (hN : 0 < N) (samples : List (String × String))
    (input : List Read) :
    ∀ (st : DState) (p : Nat),
      st.buffers.map Prod.fst = bucketKeys samples →
      st.nreads = p →
      flushTotal st.buffers = p % N →
      st.flushes.map flushTotal = List.replicate (p / N) N →
      (input.foldl (demultiplexStep N (barcodesList samples)) st).nreads
          = p + input.length ∧
        flushTotal (input.foldl (demultiplexStep N (barcodesList samples)) st).buffers
          = (p + input.length) % N ∧
        (input.foldl (demultiplexStep N (barcodesList samples)) st).flushes.map flushTotal
          = List.replicate ((p + input.length) / N) N := by
  induction input with
  | nil =>
      intro st p h1 h2 h3 h4
      simpa using ⟨h2, h3, h4⟩
  | cons r rest ih =>
      intro st p hbk hn hft hfl
      rw [List.foldl_cons]
      have hlen : p + (r :: rest).length = (p + 1) + rest.length := by
        rw [List.length_cons]
        omega
      rw [hlen]
      have hb1 : flushTotal (classifyStep st.buffers r) = p % N + 1 := by
        rw [flushTotal_classifyStep samples _ _ hbk, hft]
      by_cases hf : (st.nreads + 1) % N = 0
      · have hf' : (p + 1) % N = 0 := by rw [← hn]; exact hf
        have hstep : demultiplexStep N (barcodesList samples) st r =
            { buffers := clearBuffers (classifyStep st.buffers r),
              nreads := st.nreads + 1,
              files := writeReads (classifyStep st.buffers r) (barcodesList samples) st.files,
              flushes := st.flushes ++ [classifyStep st.buffers r] } := by
          unfold demultiplexStep
          rw [if_pos hf]
        rw [hstep]
        refine ih _ (p + 1) ?_ ?_ ?_ ?_
        · show (clearBuffers (classifyStep st.buffers r)).map Prod.fst = _
          rw [clearBuffers_keys, classifyStep_keys, hbk]
        · show st.nreads + 1 = p + 1
          omega
        · show flushTotal (clearBuffers (classifyStep st.buffers r)) = (p + 1) % N
          rw [flushTotal_clearBuffers, hf']
        · show (st.flushes ++ [classifyStep st.buffers r]).map flushTotal = _
          rw [List.map_append, hfl, List.map_singleton, hb1]
          obtain ⟨hNfull, hdiv⟩ := succ_div_mod_flush N p hN hf'
          rw [hNfull, hdiv, List.replicate_succ']
      · have hf' : ¬(p + 1) % N = 0 := by rw [← hn]; exact hf
        have hstep : demultiplexStep N (barcodesList samples) st r =
            { buffers := classifyStep st.buffers r, nreads := st.nreads + 1,
              files := st.files, flushes := st.flushes } := by
          unfold demultiplexStep
          rw [if_neg hf]
        rw [hstep]
        refine ih _ (p + 1) ?_ ?_ ?_ ?_
        · show (classifyStep st.buffers r).map Prod.fst = _
          rw [classifyStep_keys, hbk]
        · show st.nreads + 1 = p + 1
          omega
        · show flushTotal (classifyStep st.buffers r) = (p + 1) % N
          rw [hb1, (succ_div_mod_noflush N p hN hf').1]
        · show st.flushes.map flushTotal = List.replicate ((p + 1) / N) N
          rw [hfl, (succ_div_mod_noflush N p hN hf').2]

/-- C7: with flush threshold `N > 0`, the classifier performs one flush at
every multiple of `N` processed reads — each carrying exactly `N` reads —
followed by one unconditional final flush carrying the remaining
`length % N` reads (empty exactly when the input length is a multiple of
`N`): the recorded flush sizes are `replicate (length / N) N ++ [length % N]`. -/
theorem demultiplex_flush_schedule (N : Nat) (samples : List (String × String))
    (input : List Read) (hN : 0 < N) :
    (demultiplexRun N samples input).flushes.map flushTotal
      = List.replicate (input.length / N) N ++ [input.length % N] := by
  have hinitT : flushTotal (initBuffers (barcodesList samples)) = 0 % N := by
    rw [Nat.zero_mod]
    exact flushTotal_eq_zero _ (initBuffers_go_values _ [] (by simp))
  obtain ⟨h1, h2, h3⟩ := demux_fold_flush N hN samples input
    { buffers := initBuffers (barcodesList samples), nreads := 0,
      files := initFiles (barcodesList samples), flushes := [] }
    0 rfl rfl hinitT (by simp)
  rw [Nat.zero_add] at h2 h3
  show ((input.foldl (demultiplexStep N (barcodesList samples)) _).flushes
      ++ [(input.foldl (demultiplexStep N (barcodesList samples)) _).buffers]).map flushTotal = _
  rw [List.map_append, h3, List.map_singleton, h2]

/-- Witness for C7: threshold 2 on three reads gives one mid-stream flush of
2 reads and a final flush of 1 read. -/
theorem demultiplex_flush_schedule_witness :
    (demultiplexRun 2 [("s1", "AAAA")]
        [⟨"r1", "AAAA", "q"⟩, ⟨"r2", "TTTT", "q"⟩, ⟨"r3", "AAAA", "q"⟩]).flushes.map flushTotal
      = [2, 1] := by
  rw [demultiplex_flush_schedule 2 [("s1", "AAAA")]
    [⟨"r1", "AAAA", "q"⟩, ⟨"r2", "TTTT", "q"⟩, ⟨"r3", "AAAA", "q"⟩] (by decide)]
  rfl

/-! ## C9: samples sharing a barcode receive duplicated output -/

/-- C9: when two distinct sample names map to the same barcode, both samples'
output files receive the single bucket stored under that barcode on every
flush: each file equals the full filter of the input by that barcode, so
every read whose 4-character prefix equals the shared barcode appears in the
output of *both* samples — duplicated rather than partitioned. -/
theorem demultiplex_shared_barcode_duplicates (N : Nat)
    (samples : List (String × String)) (input : List Read) (n1 n2 b : String)
    (_hN : 0 < N)
    (hnames : ((barcodesList samples).map Prod.fst).Nodup)
    (h1 : (n1, b) ∈ samples) (h2 : (n2, b) ∈ samples) (_hne : n1 ≠ n2) :
    alGetD (demultiplexRun N samples input).files n1
        = input.filter (fun r => classifyKey samples r = b)
    ∧ alGetD (demultiplexRun N samples input).files n2
        = input.filter (fun r => classifyKey samples r = b)
    ∧ ∀ r ∈ input, prefix4 r = b →
        r ∈ alGetD (demultiplexRun N samples input).files n1 ∧
          r ∈ alGetD (demultiplexRun N samples input).files n2 := by
  have e1 := demultiplexRun_files_filter N samples input hnames n1 b
    (List.mem_append_left _ h1)
  have e2 := demultiplexRun_files_filter N samples input hnames n2 b
    (List.mem_append_left _ h2)
  refine ⟨e1, e2, ?_⟩
  intro r hr hpre
  have hbK : b ∈ bucketKeys samples := by
    rw [mem_bucketKeys]
    unfold barcodesList
    rw [List.map_append]
    exact List.mem_append_left _ (List.mem_map_of_mem Prod.snd h1)
  have hck : classifyKey samples r = b := by
    unfold classifyKey
    rw [hpre, if_pos hbK]
  have hmemfil : r ∈ input.filter (fun r => classifyKey samples r = b) :=
    List.mem_filter.mpr ⟨hr, by simp [hck]⟩
  rw [e1, e2]
  exact ⟨hmemfil, hmemfil⟩

/-- Witness for C9: samples `x` and `y` share barcode `AAAA`; the single
matching read lands in both output files. -/
theorem demultiplex_shared_barcode_duplicates_witness :
    alGetD (demultiplexRun 2 [("x", "AAAA"), ("y", "AAAA")]
        [⟨"r1", "AAAAG", "q"⟩]).files "x" = [⟨"r1", "AAAAG", "q"⟩]
    ∧ alGetD (demultiplexRun 2 [("x", "AAAA"), ("y", "AAAA")]
        [⟨"r1", "AAAAG", "q"⟩]).files "y" = [⟨"r1", "AAAAG", "q"⟩] := by
  obtain ⟨e1, e2, -⟩ := demultiplex_shared_barcode_duplicates 2
    [("x", "AAAA"), ("y", "AAAA")] [⟨"r1", "AAAAG", "q"⟩] "x" "y" "AAAA"
    (by decide) (by decide) (by decide) (by decide) (by decide)
  exact ⟨by rw [e1]; rfl, by rw [e2]; rfl⟩

end Pyinseq
